import Mathlib

/-!
Verification development for the go-airports-service repository.

The embedding translates, from the Go sources:
  * `db/airports` (src/unnamed/part_001): the `Airport` record and the
    `Upsert` operation whose SQL is
    `INSERT INTO airports ... ON CONFLICT (iata_code) DO UPDATE SET name, city, country`;
    the database table is embedded as a list of `Airport` rows and the
    statement semantics as `upsertDb`.
  * `handlers/v1/airports` (src/handlers/v1/airports/airports_test.go, second
    segment, and nonstreaming.go): `HandleUpsert`, `processAirports`,
    `processAirport`, `readExpectedToken`, `HandleNonStreamingUpsert`.
    The two token checks of the streaming handler are represented by the
    `openOk` / `closeOk` fields of `StreamBody`; each array element is an
    `Option UpsertAirportRequest` (`none` marks an element on which
    `dec.Decode` fails).  Handlers return a `RunResult`: the list of
    processing events (for ordering claims), the HTTP response, and the
    final database.
  * the persistence collaborator is a parameter (`PersistOracle`), mirroring
    the `upsertAirport` function variable the tests replace with mocks; the
    oracle yields the error message of the n-th call, or `none` on success.

Two repository packages are referenced by the handlers but are not under
src/, so they are modelled from the spec (each such definition says so in
its doc comment): the `validate` package (`validate.Check`) and the `web`
response emitters (`Respond`, `RespondWithError`, `RespondAfterFlush`).
Go standard library behaviour that the handlers rely on is embedded
faithfully where a claim depends on it: `json.Unmarshal` of the JSON
literal null into a slice succeeds and leaves the slice empty, and
`json.Decoder.Token` on a body that does not begin with the array-open
delimiter yields a token different from the expected delimiter.
-/

namespace GoAirports

/-- Airport mirrors db/airports.Airport: four text columns, iata_code is
the unique key of the airports table. -/
structure Airport where
  name : String
  city : String
  country : String
  iataCode : String
deriving DecidableEq

/-- UpsertAirportRequest mirrors the wire-level request struct of the
handlers package: name, city, country, iata_code, all tagged required.
The optional geoloc object of the wire format has no field here, exactly
as in the source struct; the decoder accepts and drops it. -/
structure UpsertAirportRequest where
  name : String
  city : String
  country : String
  iataCode : String
deriving DecidableEq

/-- ToAirport converts a request to an airport, field for field, as the
method of the same name does. -/
def UpsertAirportRequest.toAirport (u : UpsertAirportRequest) : Airport :=
  ⟨u.name, u.city, u.country, u.iataCode⟩

/-- reqOfAirport is the inverse of toAirport, used to speak about the
request a persisted airport came from. -/
def reqOfAirport (a : Airport) : UpsertAirportRequest :=
  ⟨a.name, a.city, a.country, a.iataCode⟩

/-- Db embeds the airports table as its list of rows. -/
abbrev Db := List Airport

/-- upsertDb is the semantics of upsertQuery in db/airports:
INSERT the row when no existing row shares its iata_code, otherwise
UPDATE name, city and country of every row sharing it (one row, when the
unique constraint holds). -/
def upsertDb (db : Db) (a : Airport) : Db :=
  if db.any (fun r => r.iataCode == a.iataCode) then
    db.map (fun r =>
      if r.iataCode == a.iataCode then
        { r with name := a.name, city := a.city, country := a.country }
      else r)
  else db ++ [a]

/-- codeFilter selects the rows of the table holding a given iata_code. -/
def codeFilter (c : String) (db : Db) : Db :=
  db.filter (fun r => r.iataCode == c)

/-- codesNodup states the unique constraint of the airports table on the
iata_code column. -/
def codesNodup (db : Db) : Prop :=
  (db.map (fun r => r.iataCode)).Nodup

lemma upsert_no_conflict (db : Db) (a : Airport)
    (h : db.any (fun r => r.iataCode == a.iataCode) = false) :
    upsertDb db a = db ++ [a] := by
  simp [upsertDb, h]

lemma upsert_conflict (db : Db) (a : Airport)
    (h : db.any (fun r => r.iataCode == a.iataCode) = true) :
    upsertDb db a = db.map (fun r =>
      if r.iataCode == a.iataCode then
        { r with name := a.name, city := a.city, country := a.country }
      else r) := by
  simp [upsertDb, h]

lemma codeFilter_nil_of_any_false (db : Db) (c : String)
    (h : db.any (fun r => r.iataCode == c) = false) :
    codeFilter c db = [] := by
  rw [List.any_eq_false] at h
  simpa [codeFilter, List.filter_eq_nil_iff] using h

lemma codeFilter_map_upd (db : Db) (a : Airport)
    (hnd : codesNodup db)
    (h : db.any (fun r => r.iataCode == a.iataCode) = true) :
    codeFilter a.iataCode (db.map (fun r =>
      if r.iataCode == a.iataCode then
        { r with name := a.name, city := a.city, country := a.country }
      else r)) = [⟨a.name, a.city, a.country, a.iataCode⟩] := by
  induction db with
  | nil => simp at h
  | cons r rs ih =>
    simp only [codesNodup, List.map_cons, List.nodup_cons] at hnd
    obtain ⟨hnotin, hndrs⟩ := hnd
    by_cases hr : r.iataCode = a.iataCode
    · have hrs_ne : ∀ s ∈ rs, (s.iataCode == a.iataCode) = false := by
        intro s hs
        rw [beq_eq_false_iff_ne, ← hr]
        intro hEq
        apply hnotin
        rw [← hEq]
        exact List.mem_map_of_mem (fun x => x.iataCode) hs
      have hmap : rs.map (fun r =>
          if r.iataCode == a.iataCode then
            { r with name := a.name, city := a.city, country := a.country }
          else r) = rs := by
        have hcg : ∀ s ∈ rs, (fun r =>
            if r.iataCode == a.iataCode then
              { r with name := a.name, city := a.city, country := a.country }
            else r) s = id s := by
          intro s hs
          simp [hrs_ne s hs]
        rw [List.map_congr_left hcg, List.map_id]
      have hfil : rs.filter (fun s => s.iataCode == a.iataCode) = [] := by
        rw [List.filter_eq_nil_iff]
        intro s hs
        simp [hrs_ne s hs]
      have hb : (r.iataCode == a.iataCode) = true := by
        rw [hr]
        exact beq_self_eq_true _
      simp only [codeFilter, List.map_cons, hmap, List.filter_cons]
      simp [hb, hr, hfil]
    · have hany : rs.any (fun s => s.iataCode == a.iataCode) = true := by
        rcases List.any_eq_true.mp h with ⟨s, hs, hsa⟩
        rcases List.mem_cons.mp hs with hsr | hsrs
        · rw [hsr] at hsa
          exact absurd (by simpa using hsa) hr
        · exact List.any_eq_true.mpr ⟨s, hsrs, hsa⟩
      have hrec := ih hndrs hany
      have hb : (r.iataCode == a.iataCode) = false := beq_eq_false_iff_ne.mpr hr
      simp only [codeFilter, List.map_cons] at hrec ⊢
      rw [List.filter_cons]
      simpa [hr, hb] using hrec

lemma codeFilter_upsert (db : Db) (a : Airport) (hnd : codesNodup db) :
    codeFilter a.iataCode (upsertDb db a) = [⟨a.name, a.city, a.country, a.iataCode⟩] := by
  cases h : db.any (fun r => r.iataCode == a.iataCode) with
  | false =>
    rw [upsert_no_conflict db a h, codeFilter, List.filter_append]
    have h1 : db.filter (fun r => r.iataCode == a.iataCode) = [] := by
      simpa [codeFilter] using codeFilter_nil_of_any_false db a.iataCode h
    simp [h1]
  | true =>
    rw [upsert_conflict db a h]
    exact codeFilter_map_upd db a hnd h

lemma codesNodup_upsert (db : Db) (a : Airport) (hnd : codesNodup db) :
    codesNodup (upsertDb db a) := by
  cases h : db.any (fun r => r.iataCode == a.iataCode) with
  | false =>
    rw [upsert_no_conflict db a h]
    have hnot : a.iataCode ∉ db.map (fun r => r.iataCode) := by
      rw [List.any_eq_false] at h
      intro hmem
      rcases List.mem_map.mp hmem with ⟨r, hr, hra⟩
      exact (h r hr) (by simp [hra])
    simpa [codesNodup, List.nodup_append] using ⟨hnd, by simpa using hnot⟩
  | true =>
    rw [upsert_conflict db a h]
    have hcodes : (db.map (fun r =>
        if r.iataCode == a.iataCode then
          { r with name := a.name, city := a.city, country := a.country }
        else r)).map (fun r => r.iataCode) = db.map (fun r => r.iataCode) := by
      rw [List.map_map]
      refine List.map_congr_left ?_
      intro r _
      by_cases hr : r.iataCode = a.iataCode <;> simp [hr]
    simp only [codesNodup] at hnd ⊢
    rw [hcodes]
    exact hnd

/-- C5: the unique code is the sole identity of a persisted record.
Upserting two candidates sharing one code leaves exactly one row for that
code, holding the attributes of the later candidate; when no row with the
code exists yet, the first upsert creates the row; and the unique
constraint on iata_code is preserved. -/
theorem upsert_code_identity (db : Db) (a1 a2 : Airport)
    (hnd : codesNodup db) (hc : a1.iataCode = a2.iataCode) :
    codeFilter a2.iataCode (upsertDb (upsertDb db a1) a2) =
      [⟨a2.name, a2.city, a2.country, a2.iataCode⟩]
    ∧ codesNodup (upsertDb (upsertDb db a1) a2)
    ∧ (codeFilter a1.iataCode db = [] →
        upsertDb db a1 = db ++ [⟨a1.name, a1.city, a1.country, a1.iataCode⟩])
    ∧ codeFilter a1.iataCode (upsertDb db a1) =
      [⟨a1.name, a1.city, a1.country, a1.iataCode⟩] := by
  have hnd1 : codesNodup (upsertDb db a1) := codesNodup_upsert db a1 hnd
  refine ⟨codeFilter_upsert _ a2 hnd1, codesNodup_upsert _ a2 hnd1, ?_, codeFilter_upsert db a1 hnd⟩
  intro hempty
  have hany : db.any (fun r => r.iataCode == a1.iataCode) = false := by
    by_contra hne
    have hany' : db.any (fun r => r.iataCode == a1.iataCode) = true := by
      cases h : db.any (fun r => r.iataCode == a1.iataCode) with
      | false => exact absurd h hne
      | true => rfl
    rcases List.any_eq_true.mp hany' with ⟨r, hr, hra⟩
    have : r ∈ codeFilter a1.iataCode db := List.mem_filter.mpr ⟨hr, hra⟩
    simp [hempty] at this
  rw [upsert_no_conflict db a1 hany]

/-- C5 witness: two upserts of code X1 into the empty table leave one row
with the attributes of the second upsert. -/
theorem upsert_code_identity_witness :
    codeFilter "X1" (upsertDb (upsertDb [] ⟨"A", "B", "C", "X1"⟩) ⟨"D", "E", "F", "X1"⟩) =
      [⟨"D", "E", "F", "X1"⟩] := by
  exact (upsert_code_identity [] ⟨"A", "B", "C", "X1"⟩ ⟨"D", "E", "F", "X1"⟩
    (by simp [codesNodup]) rfl).1

/-- Violation is one field-level validation failure, as serialized in the
error bodies of the tests: a field name and a message. -/
structure Violation where
  field : String
  error : String
deriving DecidableEq

/-- requiredViolation renders the message used by the validator for a
missing required field, as pinned by the tests:
iata_code is a required field. -/
def requiredViolation (f : String) : Violation :=
  ⟨f, f ++ " is a required field"⟩

/-- present is the whitespace-insensitive presence check of the spec: a
field counts as given exactly when it holds at least one non-whitespace
character, that is, when it is non-empty after trimming. -/
def present (s : String) : Bool :=
  s.data.any (fun c => !c.isWhitespace)

/-- Modelled from the spec: the validate package (validate.Check) is not
under src/.  Spec section 4.2: name, city, country and the unique code are
required under a whitespace-insensitive presence check, geolocation is
never required, violations come in a fixed field-declaration order, and a
fully valid candidate yields the empty list rather than an error. -/
def validateCheck (r : UpsertAirportRequest) : List Violation :=
  (if present r.name then [] else [requiredViolation "name"])
    ++ (if present r.city then [] else [requiredViolation "city"])
    ++ (if present r.country then [] else [requiredViolation "country"])
    ++ (if present r.iataCode then [] else [requiredViolation "iata_code"])

/-- violationJson renders one violation as the JSON object the tests
expect inside the error body. -/
def violationJson (v : Violation) : String :=
  "\x7b\"field\":\"" ++ v.field ++ "\",\"error\":\"" ++ v.error ++ "\"\x7d"

/-- violationsMsg renders the violation list the way the handlers surface
it (the Error() string of the check, a JSON array). -/
def violationsMsg (vs : List Violation) : String :=
  "[" ++ String.intercalate "," (vs.map violationJson) ++ "]"

/-- Modelled from the spec: the web package response emitters are not
under src/.  A response body is either the error object
with one message or the success object with one message, mirroring
RespondWithError and Respond / RespondAfterFlush. -/
inductive Body where
  | errorB (msg : String)
  | successB (msg : String)
deriving DecidableEq

/-- HResponse is the observable HTTP response: status code and body. -/
structure HResponse where
  status : Nat
  body : Body
deriving DecidableEq

/-- Event records one observable processing step of a handler run, used
to state ordering, fail-fast and commit-point claims.  Element events
carry the 0-based array index of the element they concern. -/
inductive Event where
  | readOpen (ok : Bool)
  | decodeElem (i : Nat) (ok : Bool)
  | validateElem (i : Nat) (viols : List Violation)
  | upsertElem (i : Nat) (a : Airport) (errMsg : Option String)
  | readClose (ok : Bool)
  | flushEv (ok : Bool)
deriving DecidableEq

/-- PersistOracle stands for the upsertAirport collaborator (the function
variable the tests replace): for the call on the element with a given
index and airport value it yields the error message, or none on success.
On success the table changes by upsertDb. -/
abbrev PersistOracle := Nat → Airport → Option String

/-- handlerError mirrors the handlerError struct of the streaming
handler: an HTTP status code and a message. -/
structure HandlerError where
  code : Nat
  msg : String
deriving DecidableEq

/-- RunResult is the observable outcome of one handler run: the ordered
event trace, the HTTP response, and the final database. -/
structure RunResult where
  trace : List Event
  resp : HResponse
  db : Db
deriving DecidableEq

/-- processAirport embeds the method of the same name: decode one
element (a none element is one on which dec.Decode fails, yielding 400
invalid JSON airport structure), validate it (non-empty violations yield
400 with the serialized violations), then call the persistence
collaborator (an error yields 500 with the wrapped message). -/
def processAirport (p : PersistOracle) (i : Nat) (db : Db)
    (e : Option UpsertAirportRequest) : List Event × Db × Option HandlerError :=
  match e with
  | none => ([.decodeElem i false], db, some ⟨400, "invalid JSON airport structure"⟩)
  | some req =>
    let viols := validateCheck req
    if viols.isEmpty then
      match p i req.toAirport with
      | some msg =>
        ([.decodeElem i true, .validateElem i viols, .upsertElem i req.toAirport (some msg)],
          db, some ⟨500, "error upserting airport: " ++ msg⟩)
      | none =>
        ([.decodeElem i true, .validateElem i viols, .upsertElem i req.toAirport none],
          upsertDb db req.toAirport, none)
    else
      ([.decodeElem i true, .validateElem i viols], db, some ⟨400, violationsMsg viols⟩)

/-- processAirports embeds the method of the same name: the dec.More()
loop over the remaining array elements, processing them in order and
returning the first handlerError, if any. -/
def processAirports (p : PersistOracle) (i : Nat) (db : Db) :
    List (Option UpsertAirportRequest) → List Event × Db × Option HandlerError
  | [] => ([], db, none)
  | e :: es =>
    match processAirport p i db e with
    | (tr, db1, some h) => (tr, db1, some h)
    | (tr, db1, none) =>
      let r := processAirports p (i + 1) db1 es
      (tr ++ r.1, r.2.1, r.2.2)

/-- StreamBody is what the streaming handler observes of the request
body through the json.Decoder: whether the first structural token is the
array-open delimiter, the array elements in order (none marks an element
dec.Decode rejects), and whether the token after the elements is the
array-close delimiter. -/
structure StreamBody where
  openOk : Bool
  elems : List (Option UpsertAirportRequest)
  closeOk : Bool

/-- handleUpsert embeds HandleUpsert: expect the open delimiter (else
400 expected-open error), process the elements fail-fast, expect the
close delimiter (else 400 expected-close error), flush the response (an
error yields 500 with the flush error message), then write the fixed
success body.  flushErr is the error of the responseController mock, if
any. -/
def handleUpsert (p : PersistOracle) (flushErr : Option String) (db : Db)
    (b : StreamBody) : RunResult :=
  if b.openOk then
    match processAirports p 0 db b.elems with
    | (tr, db1, some h) =>
      ⟨Event.readOpen true :: tr, ⟨h.code, .errorB h.msg⟩, db1⟩
    | (tr, db1, none) =>
      if b.closeOk then
        match flushErr with
        | some msg =>
          ⟨Event.readOpen true :: tr ++ [Event.readClose true, Event.flushEv false],
            ⟨500, .errorB msg⟩, db1⟩
        | none =>
          ⟨Event.readOpen true :: tr ++ [Event.readClose true, Event.flushEv true],
            ⟨200, .successB "airports upserted"⟩, db1⟩
      else
        ⟨Event.readOpen true :: tr ++ [Event.readClose false],
          ⟨400, .errorB "invalid JSON: expected \x27]\x27 at end"⟩, db1⟩
  else
    ⟨[Event.readOpen false],
      ⟨400, .errorB "invalid JSON: expected \x27[\x27 at start"⟩, db⟩

/-- upsertLoop embeds the for-range loop of HandleNonStreamingUpsert over
the decoded slice: validate then persist each element in order,
fail-fast, with the same messages as the streaming path (errors.Wrap
yields the identical wrapped string). -/
def upsertLoop (p : PersistOracle) (i : Nat) (db : Db) :
    List UpsertAirportRequest → List Event × Db × Option HandlerError
  | [] => ([], db, none)
  | req :: reqs =>
    let viols := validateCheck req
    if viols.isEmpty then
      match p i req.toAirport with
      | some msg =>
        ([.validateElem i viols, .upsertElem i req.toAirport (some msg)],
          db, some ⟨500, "error upserting airport: " ++ msg⟩)
      | none =>
        let r := upsertLoop p (i + 1) (upsertDb db req.toAirport) reqs
        (Event.validateElem i viols :: Event.upsertElem i req.toAirport none :: r.1,
          r.2.1, r.2.2)
    else
      ([.validateElem i viols], db, some ⟨400, violationsMsg viols⟩)

/-- Jbody is the request body surface shared by the two endpoints, only
as far as the claims need it: the JSON literal null, a top-level object,
or a top-level array of elements (with or without its closing
delimiter). -/
inductive Jbody where
  | jnull
  | jobject
  | jarray (elems : List (Option UpsertAirportRequest)) (closeOk : Bool)

/-- sequenceElems decodes a whole element list at once: it succeeds only
when every element decodes, as json.Unmarshal of the full array does. -/
def sequenceElems : List (Option UpsertAirportRequest) → Option (List UpsertAirportRequest)
  | [] => some []
  | none :: _ => none
  | some r :: es => (sequenceElems es).map (fun rs => r :: rs)

/-- unmarshalAirports embeds json.Unmarshal of the body into the request
slice: the JSON literal null unmarshals successfully into the empty
slice (documented encoding/json behaviour), a top-level object or a
structurally broken array fails as a whole. -/
def unmarshalAirports : Jbody → Option (List UpsertAirportRequest)
  | .jnull => some []
  | .jobject => none
  | .jarray es c => if c then sequenceElems es else none

/-- streamView is what the json.Decoder token reader observes of a body:
only an array body begins with the array-open delimiter; for null and a
top-level object the first Token() call yields a non-delimiter token. -/
def streamView : Jbody → StreamBody
  | .jnull => ⟨false, [], false⟩
  | .jobject => ⟨false, [], false⟩
  | .jarray es c => ⟨true, es, c⟩

/-- handleNonStreamingUpsert embeds HandleNonStreamingUpsert: read the
whole body (readFail marks the injected io.ReadAll failure, 400), decode
it in one json.Unmarshal (failure yields 400 invalid JSON format), then
run the validate-persist loop and answer 200 with the fixed success body
when no element fails. -/
def handleNonStreamingUpsert (p : PersistOracle) (readFail : Bool) (db : Db)
    (body : Jbody) : RunResult :=
  if readFail then ⟨[], ⟨400, .errorB "failed to read request body"⟩, db⟩
  else
    match unmarshalAirports body with
    | none => ⟨[], ⟨400, .errorB "invalid JSON format"⟩, db⟩
    | some reqs =>
      match upsertLoop p 0 db reqs with
      | (tr, db1, some h) => ⟨tr, ⟨h.code, .errorB h.msg⟩, db1⟩
      | (tr, db1, none) => ⟨tr, ⟨200, .successB "airports upserted"⟩, db1⟩

/-- handleUpsertJ runs the streaming handler on a shared body value. -/
def handleUpsertJ (p : PersistOracle) (flushErr : Option String) (db : Db)
    (b : Jbody) : RunResult :=
  handleUpsert p flushErr db (streamView b)

/-- evIdx extracts the element index of an element-level event. -/
def evIdx : Event → Option Nat
  | .decodeElem i _ => some i
  | .validateElem i _ => some i
  | .upsertElem i _ _ => some i
  | _ => none

/-- elemIdxs lists the element indices of a trace, in trace order. -/
def elemIdxs (t : List Event) : List Nat :=
  t.filterMap evIdx

/-- isFlushEv recognizes the response-commit event. -/
def isFlushEv : Event → Bool
  | .flushEv _ => true
  | _ => false

/-- isReadCloseEv recognizes the close-delimiter read. -/
def isReadCloseEv : Event → Bool
  | .readClose _ => true
  | _ => false

/-- isUpsertAt recognizes a persistence call on the element of a given
index. -/
def isUpsertAt (i : Nat) : Event → Bool
  | .upsertElem j _ _ => j == i
  | _ => false

/-- elemErr is the handlerError one element produces in isolation; the
error of processAirport does not depend on the database. -/
def elemErr (p : PersistOracle) (i : Nat) (e : Option UpsertAirportRequest) :
    Option HandlerError :=
  (processAirport p i [] e).2.2

/-- pNone is the always-succeeding persistence collaborator of the happy
path tests. -/
def pNone : PersistOracle := fun _ _ => none

/-- sampleReq is a concrete fully valid candidate used for witnesses. -/
def sampleReq : UpsertAirportRequest := ⟨"A", "B", "C", "X1"⟩

lemma processAirport_events (p : PersistOracle) (i : Nat) (db : Db)
    (e : Option UpsertAirportRequest) :
    ∀ ev ∈ (processAirport p i db e).1, evIdx ev = some i := by
  intro ev hev
  cases e with
  | none =>
    simp only [processAirport, List.mem_singleton] at hev
    simp [hev, evIdx]
  | some req =>
    simp only [processAirport] at hev
    split at hev
    · cases hp : p i req.toAirport with
      | some msg =>
        rw [hp] at hev
        simp only [List.mem_cons, List.not_mem_nil, or_false] at hev
        rcases hev with h | h | h <;> simp [h, evIdx]
      | none =>
        rw [hp] at hev
        simp only [List.mem_cons, List.not_mem_nil, or_false] at hev
        rcases hev with h | h | h <;> simp [h, evIdx]
    · simp only [List.mem_cons, List.not_mem_nil, or_false] at hev
      rcases hev with h | h <;> simp [h, evIdx]

lemma evIdx_not_structural (ev : Event) (j : Nat) (h : evIdx ev = some j) :
    isReadCloseEv ev = false ∧ isFlushEv ev = false ∧ ∀ ok, ev ≠ Event.readOpen ok := by
  cases ev <;> simp_all [evIdx, isReadCloseEv, isFlushEv]

lemma processAirports_bounds (p : PersistOracle) :
    ∀ (l : List (Option UpsertAirportRequest)) (n : Nat) (db : Db),
      ∀ ev ∈ (processAirports p n db l).1,
        ∃ j, evIdx ev = some j ∧ n ≤ j ∧ j < n + l.length := by
  intro l
  induction l with
  | nil => intro n db ev hev; simp [processAirports] at hev
  | cons e es ih =>
    intro n db ev hev
    simp only [processAirports] at hev
    rcases hpe : processAirport p n db e with ⟨tr, db1, herr⟩
    rw [hpe] at hev
    cases herr with
    | some h =>
      simp only at hev
      have : ev ∈ (processAirport p n db e).1 := by rw [hpe]; exact hev
      refine ⟨n, processAirport_events p n db e ev this, le_refl n, ?_⟩
      simp
    | none =>
      simp only at hev
      rcases List.mem_append.mp hev with hl | hr
      · have : ev ∈ (processAirport p n db e).1 := by rw [hpe]; exact hl
        refine ⟨n, processAirport_events p n db e ev this, le_refl n, by simp⟩
      · rcases ih (n + 1) db1 ev hr with ⟨j, hj, hnj, hjlt⟩
        refine ⟨j, hj, by omega, by simp; omega⟩

/-- C7: the empty array body yields the success outcome, persists
nothing, and produces no decode, validation or upsert event for any
element. -/
theorem empty_array_success : ∀ (p : PersistOracle) (db : Db),
    handleUpsert p none db ⟨true, [], true⟩ =
      ⟨[Event.readOpen true, Event.readClose true, Event.flushEv true],
        ⟨200, Body.successB "airports upserted"⟩, db⟩ :=
  fun _ _ => rfl

/-- C8: when the body does not begin with the array-open delimiter the
streaming handler answers 400 with the fixed expected-open error body,
leaves the database untouched, and its trace holds only the failed open
read: in particular no flush (commit) event and no element event
occurred before the failure. -/
theorem missing_open_bracket : ∀ (p : PersistOracle) (f : Option String) (db : Db)
    (es : List (Option UpsertAirportRequest)) (c : Bool),
    handleUpsert p f db ⟨false, es, c⟩ =
      ⟨[Event.readOpen false],
        ⟨400, Body.errorB "invalid JSON: expected \x27[\x27 at start"⟩, db⟩
    ∧ handleUpsertJ p f db Jbody.jobject =
      ⟨[Event.readOpen false],
        ⟨400, Body.errorB "invalid JSON: expected \x27[\x27 at start"⟩, db⟩ :=
  fun _ _ _ _ _ => ⟨rfl, rfl⟩

/-- C10: on the body that is the JSON literal null, the baseline handler
succeeds with 200 and the fixed success body while persisting nothing
(json.Unmarshal of null leaves the slice empty), whereas the streaming
handler rejects the same body with the 400 expected-open error. -/
theorem null_body_divergence : ∀ (p : PersistOracle) (f : Option String) (db : Db),
    handleNonStreamingUpsert p false db Jbody.jnull =
      ⟨[], ⟨200, Body.successB "airports upserted"⟩, db⟩
    ∧ handleUpsertJ p f db Jbody.jnull =
      ⟨[Event.readOpen false],
        ⟨400, Body.errorB "invalid JSON: expected \x27[\x27 at start"⟩, db⟩ :=
  fun _ _ _ => ⟨rfl, rfl⟩

/-- C2 counterexample: on a concrete fully valid one-element array the
streaming handler reads the close delimiter strictly before it flushes:
the claim that the flush precedes the close-bracket read is false on
this run. -/
theorem flush_before_close_refuted :
    Event.flushEv true ∈ (handleUpsert pNone none [] ⟨true, [some sampleReq], true⟩).trace
    ∧ Event.readClose true ∈ (handleUpsert pNone none [] ⟨true, [some sampleReq], true⟩).trace
    ∧ ¬ ((handleUpsert pNone none [] ⟨true, [some sampleReq], true⟩).trace.findIdx isFlushEv <
        (handleUpsert pNone none [] ⟨true, [some sampleReq], true⟩).trace.findIdx isReadCloseEv)
    ∧ (handleUpsert pNone none [] ⟨true, [some sampleReq], true⟩).trace.findIdx isReadCloseEv <
        (handleUpsert pNone none [] ⟨true, [some sampleReq], true⟩).trace.findIdx isFlushEv := by
  decide

lemma findIdx_append_all_false (pr : Event → Bool) (tr rest : List Event)
    (htr : ∀ x ∈ tr, pr x = false) :
    (tr ++ rest).findIdx pr = tr.length + rest.findIdx pr := by
  induction tr with
  | nil => simp
  | cons x xs ih =>
    have hx : pr x = false := htr x (by simp)
    have hxs : ∀ y ∈ xs, pr y = false := fun y hy => htr y (by simp [hy])
    simp only [List.cons_append, List.findIdx_cons, hx, cond_false, ih hxs, List.length_cons]
    omega

lemma processAirports_no_structural (p : PersistOracle) (n : Nat) (db : Db)
    (l : List (Option UpsertAirportRequest)) :
    ∀ ev ∈ (processAirports p n db l).1, isReadCloseEv ev = false ∧ isFlushEv ev = false := by
  intro ev hev
  rcases processAirports_bounds p l n db ev hev with ⟨j, hj, _, _⟩
  exact ⟨(evIdx_not_structural ev j hj).1, (evIdx_not_structural ev j hj).2.1⟩

/-- C2 amended: in every streaming run whose trace holds a flush (commit)
event at all, the successful read of the close delimiter appears in the
trace strictly before the flush; the commit point follows the
bracket-close check and precedes only the writing of the success body. -/
theorem flush_follows_close (p : PersistOracle) (f : Option String) (db : Db)
    (b : StreamBody)
    (h : ∃ ok, Event.flushEv ok ∈ (handleUpsert p f db b).trace) :
    Event.readClose true ∈ (handleUpsert p f db b).trace
    ∧ (handleUpsert p f db b).trace.findIdx isReadCloseEv <
        (handleUpsert p f db b).trace.findIdx isFlushEv := by
  obtain ⟨ok, hmem⟩ := h
  by_cases ho : b.openOk
  · rcases hr : processAirports p 0 db b.elems with ⟨tr, db1, herr⟩
    have htr_rc : ∀ x ∈ tr, isReadCloseEv x = false := by
      intro x hx
      exact (processAirports_no_structural p 0 db b.elems x (by rw [hr]; exact hx)).1
    have htr_fl : ∀ x ∈ tr, isFlushEv x = false := by
      intro x hx
      exact (processAirports_no_structural p 0 db b.elems x (by rw [hr]; exact hx)).2
    cases herr with
    | some he =>
      simp only [handleUpsert, ho, if_true, hr] at hmem ⊢
      rcases List.mem_cons.mp hmem with h1 | h1
      · exact absurd h1.symm (by simp)
      · exact absurd (htr_fl _ h1) (by simp [isFlushEv])
    | none =>
      by_cases hc : b.closeOk
      · have key : ∀ fl : Bool,
            Event.readClose true ∈
              (Event.readOpen true :: tr ++ [Event.readClose true, Event.flushEv fl])
            ∧ (Event.readOpen true :: tr ++ [Event.readClose true, Event.flushEv fl]).findIdx
                isReadCloseEv <
              (Event.readOpen true :: tr ++ [Event.readClose true, Event.flushEv fl]).findIdx
                isFlushEv := by
          intro fl
          have htr_rc' : ∀ x ∈ Event.readOpen true :: tr, isReadCloseEv x = false := by
            intro x hx
            rcases List.mem_cons.mp hx with h1 | h1
            · simp [h1, isReadCloseEv]
            · exact htr_rc x h1
          have htr_fl' : ∀ x ∈ Event.readOpen true :: tr, isFlushEv x = false := by
            intro x hx
            rcases List.mem_cons.mp hx with h1 | h1
            · simp [h1, isFlushEv]
            · exact htr_fl x h1
          constructor
          · simp
          · have h1 : (Event.readOpen true :: tr ++ [Event.readClose true, Event.flushEv fl]).findIdx
                isReadCloseEv = tr.length + 1 := by
              rw [findIdx_append_all_false _ _ _ htr_rc']
              simp [List.findIdx_cons, isReadCloseEv]
            have h2 : (Event.readOpen true :: tr ++ [Event.readClose true, Event.flushEv fl]).findIdx
                isFlushEv = tr.length + 2 := by
              rw [findIdx_append_all_false _ _ _ htr_fl']
              simp [List.findIdx_cons, isFlushEv, isReadCloseEv]
            omega
        cases f with
        | some msg =>
          simp only [handleUpsert, ho, if_true, hr, hc] at hmem ⊢
          exact key false
        | none =>
          simp only [handleUpsert, ho, if_true, hr, hc] at hmem ⊢
          exact key true
      · simp only [handleUpsert, ho, if_true, hr, hc, if_false] at hmem
        rcases List.mem_cons.mp hmem with h1 | h1
        · exact absurd h1.symm (by simp)
        · rcases List.mem_append.mp h1 with h2 | h2
          · exact absurd (htr_fl _ h2) (by simp [isFlushEv])
          · simp at h2
  · simp only [handleUpsert, ho, if_false] at hmem
    rcases List.mem_cons.mp hmem with h1 | h1
    · exact absurd h1.symm (by simp)
    · simp at h1

/-- C2 amended witness: the one-element happy-path run has a flush event,
and in it the close read precedes the flush. -/
theorem flush_follows_close_witness :
    (∃ ok, Event.flushEv ok ∈ (handleUpsert pNone none [] ⟨true, [some sampleReq], true⟩).trace)
    ∧ Event.readClose true ∈ (handleUpsert pNone none [] ⟨true, [some sampleReq], true⟩).trace
    ∧ (handleUpsert pNone none [] ⟨true, [some sampleReq], true⟩).trace.findIdx isReadCloseEv <
        (handleUpsert pNone none [] ⟨true, [some sampleReq], true⟩).trace.findIdx isFlushEv :=
  ⟨⟨true, by decide⟩,
    flush_follows_close pNone none [] ⟨true, [some sampleReq], true⟩ ⟨true, by decide⟩⟩

lemma processAirport_err_irrel (p : PersistOracle) (i : Nat) (db : Db)
    (e : Option UpsertAirportRequest) :
    (processAirport p i db e).2.2 = elemErr p i e := by
  cases e with
  | none => rfl
  | some req =>
    simp only [processAirport, elemErr]
    split
    · cases p i req.toAirport <;> rfl
    · rfl

lemma processAirport_db_of_fail (p : PersistOracle) (i : Nat) (db : Db)
    (e : Option UpsertAirportRequest) (h : elemErr p i e ≠ none) :
    (processAirport p i db e).2.1 = db := by
  cases e with
  | none => rfl
  | some req =>
    by_cases hv : (validateCheck req).isEmpty
    · cases hp : p i req.toAirport with
      | some msg => simp [processAirport, hv, hp]
      | none => exact absurd (by simp [elemErr, processAirport, hv, hp]) h
    · simp [processAirport, hv]

lemma elemErr_none_shape (p : PersistOracle) (i : Nat)
    (e : Option UpsertAirportRequest) (h : elemErr p i e = none) :
    ∃ req, e = some req ∧ validateCheck req = [] ∧ p i req.toAirport = none := by
  cases e with
  | none => simp [elemErr, processAirport] at h
  | some req =>
    by_cases hv : (validateCheck req).isEmpty
    · cases hp : p i req.toAirport with
      | some msg => simp [elemErr, processAirport, hv, hp] at h
      | none => exact ⟨req, rfl, List.isEmpty_iff.mp hv, hp⟩
    · simp [elemErr, processAirport, hv] at h

lemma processAirport_ok (p : PersistOracle) (i : Nat) (db : Db)
    (req : UpsertAirportRequest) (hv : validateCheck req = [])
    (hp : p i req.toAirport = none) :
    processAirport p i db (some req) =
      ([Event.decodeElem i true, Event.validateElem i [], Event.upsertElem i req.toAirport none],
        upsertDb db req.toAirport, none) := by
  simp [processAirport, hv, hp]

lemma sorted_of_all_eq (t : List Nat) (n : Nat) (h : ∀ x ∈ t, x = n) :
    t.Sorted (· ≤ ·) := by
  induction t with
  | nil => simp
  | cons x xs ih =>
    rw [List.sorted_cons]
    refine ⟨?_, ih (fun y hy => h y (by simp [hy]))⟩
    intro b hb
    rw [h x (by simp), h b (by simp [hb])]

lemma processAirports_stop (p : PersistOracle) :
    ∀ (l : List (Option UpsertAirportRequest)) (n : Nat) (db : Db) (i : Nat)
      (hi : i < l.length),
      (∀ j (hj : j < i), elemErr p (n + j) (l.get ⟨j, hj.trans hi⟩) = none) →
      elemErr p (n + i) (l.get ⟨i, hi⟩) ≠ none →
      (processAirports p n db l).2.2 = elemErr p (n + i) (l.get ⟨i, hi⟩)
      ∧ (processAirports p n db l).2.1 = (processAirports p n db (l.take i)).2.1
      ∧ (processAirports p n db l).1 =
          (processAirports p n db (l.take i)).1 ++
            (processAirport p (n + i) ((processAirports p n db (l.take i)).2.1)
              (l.get ⟨i, hi⟩)).1 := by
  intro l
  induction l with
  | nil => intro n db i hi; simp at hi
  | cons e es ih =>
    intro n db i hi hpre hfail
    cases i with
    | zero =>
      have hf : elemErr p n e ≠ none := by simpa using hfail
      rcases he : elemErr p n e with _ | he'
      · exact absurd he hf
      have hdb : (processAirport p n db e).2.1 = db := processAirport_db_of_fail p n db e hf
      have hrun : processAirports p n db (e :: es) = processAirport p n db e := by
        have herr : (processAirport p n db e).2.2 = some he' := by
          rw [processAirport_err_irrel, he]
        simp only [processAirports]
        rcases hpa : processAirport p n db e with ⟨tr, db1, herr1⟩
        rw [hpa] at herr
        simp only at herr
        subst herr
        rfl
      refine ⟨?_, ?_, ?_⟩
      · rw [hrun, processAirport_err_irrel]
        rfl
      · rw [hrun]
        simpa [processAirports] using hdb
      · rw [hrun]
        simp [processAirports]
    | succ j =>
      have h0 : elemErr p n e = none := by
        have := hpre 0 (Nat.succ_pos j)
        simpa using this
      rcases elemErr_none_shape p n e h0 with ⟨req, rfl, hv, hp0⟩
      have hpa := processAirport_ok p n db req hv hp0
      have hj : j < es.length := by simpa using hi
      have hpre' : ∀ j' (hj' : j' < j), elemErr p ((n + 1) + j') (es.get ⟨j', hj'.trans hj⟩) = none := by
        intro j' hj'
        have harith : n + (j' + 1) = (n + 1) + j' := by omega
        have := hpre (j' + 1) (by omega)
        rw [harith] at this
        simpa using this
      have hfail' : elemErr p ((n + 1) + j) (es.get ⟨j, hj⟩) ≠ none := by
        have harith : n + (j + 1) = (n + 1) + j := by omega
        rw [harith] at hfail
        simpa using hfail
      have IH := ih (n + 1) (upsertDb db req.toAirport) j hj hpre' hfail'
      have harith : n + (j + 1) = (n + 1) + j := by omega
      constructor
      · simp only [processAirports, hpa]
        rw [harith]
        exact IH.1
      constructor
      · simp only [List.take_succ_cons, processAirports, hpa]
        exact IH.2.1
      · simp only [List.take_succ_cons, processAirports, hpa]
        simp only [List.append_assoc]
        congr 1
        rw [IH.2.2, harith]
        rfl

/-- foldUpserts applies the upserts of a request list to the table in
array order. -/
def foldUpserts (db : Db) : List UpsertAirportRequest → Db
  | [] => db
  | r :: rs => foldUpserts (upsertDb db r.toAirport) rs

lemma processAirports_all_ok (p : PersistOracle) :
    ∀ (l : List (Option UpsertAirportRequest)) (n : Nat) (db : Db),
      (∀ j (hj : j < l.length), elemErr p (n + j) (l.get ⟨j, hj⟩) = none) →
      (processAirports p n db l).2.2 = none
      ∧ ∀ rs, sequenceElems l = some rs →
          (processAirports p n db l).2.1 = foldUpserts db rs := by
  intro l
  induction l with
  | nil =>
    intro n db _
    refine ⟨rfl, ?_⟩
    intro rs hrs
    simp only [sequenceElems, Option.some_inj] at hrs
    subst hrs
    rfl
  | cons e es ih =>
    intro n db hall
    have h0 : elemErr p n e = none := by
      have := hall 0 (by simp)
      simpa using this
    rcases elemErr_none_shape p n e h0 with ⟨req, rfl, hv, hp0⟩
    have hpa := processAirport_ok p n db req hv hp0
    have hall' : ∀ j (hj : j < es.length), elemErr p ((n + 1) + j) (es.get ⟨j, hj⟩) = none := by
      intro j hjl
      have harith : n + (j + 1) = (n + 1) + j := by omega
      have := hall (j + 1) (by simpa using Nat.succ_lt_succ hjl)
      rw [harith] at this
      simpa using this
    have IH := ih (n + 1) (upsertDb db req.toAirport) hall'
    refine ⟨by simp only [processAirports, hpa]; exact IH.1, ?_⟩
    intro rs hrs
    have hseq_eq : sequenceElems (some req :: es) =
        (sequenceElems es).map (fun rs => req :: rs) := rfl
    rw [hseq_eq] at hrs
    rcases hseq : sequenceElems es with _ | rs'
    · rw [hseq] at hrs; simp at hrs
    · rw [hseq] at hrs
      simp only [Option.map_some', Option.some_inj] at hrs
      subst hrs
      simp only [processAirports, hpa]
      exact IH.2 rs' hseq

lemma processAirports_ok_mem (p : PersistOracle) :
    ∀ (l : List (Option UpsertAirportRequest)) (n : Nat) (db : Db),
      (∀ j (hj : j < l.length), elemErr p (n + j) (l.get ⟨j, hj⟩) = none) →
      ∀ j (hj : j < l.length), ∃ req, l.get ⟨j, hj⟩ = some req ∧
        Event.upsertElem (n + j) req.toAirport none ∈ (processAirports p n db l).1 := by
  intro l
  induction l with
  | nil => intro n db _ j hj; simp at hj
  | cons e es ih =>
    intro n db hall j hj
    have h0 : elemErr p n e = none := by
      have := hall 0 (by simp)
      simpa using this
    rcases elemErr_none_shape p n e h0 with ⟨req, rfl, hv, hp0⟩
    have hpa := processAirport_ok p n db req hv hp0
    have hall' : ∀ j' (hj' : j' < es.length), elemErr p ((n + 1) + j') (es.get ⟨j', hj'⟩) = none := by
      intro j' hjl
      have harith : n + (j' + 1) = (n + 1) + j' := by omega
      have := hall (j' + 1) (by simpa using Nat.succ_lt_succ hjl)
      rw [harith] at this
      simpa using this
    cases j with
    | zero =>
      refine ⟨req, rfl, ?_⟩
      simp only [processAirports, hpa]
      simp
    | succ j' =>
      have hj' : j' < es.length := by simpa using hj
      rcases ih (n + 1) (upsertDb db req.toAirport) hall' j' hj' with ⟨req', hget, hmem⟩
      refine ⟨req', by simpa using hget, ?_⟩
      simp only [processAirports, hpa]
      have harith : n + (j' + 1) = (n + 1) + j' := by omega
      rw [harith]
      exact List.mem_append_right _ hmem

lemma processAirports_sorted (p : PersistOracle) :
    ∀ (l : List (Option UpsertAirportRequest)) (n : Nat) (db : Db),
      (elemIdxs (processAirports p n db l).1).Sorted (· ≤ ·) := by
  intro l
  induction l with
  | nil => intro n db; simp [processAirports, elemIdxs]
  | cons e es ih =>
    intro n db
    rcases hpa : processAirport p n db e with ⟨tr, db1, herr⟩
    have htr : ∀ x ∈ elemIdxs tr, x = n := by
      intro x hx
      rcases List.mem_filterMap.mp hx with ⟨ev, hev, hevx⟩
      have := processAirport_events p n db e ev (by rw [hpa]; exact hev)
      rw [this] at hevx
      exact (Option.some_inj.mp hevx).symm
    cases herr with
    | some h1 =>
      simp only [processAirports, hpa]
      exact sorted_of_all_eq _ n htr
    | none =>
      simp only [processAirports, hpa, elemIdxs, List.filterMap_append]
      refine List.pairwise_append.mpr ⟨sorted_of_all_eq _ n htr, ih (n + 1) db1, ?_⟩
      intro a ha b hb
      rcases List.mem_filterMap.mp hb with ⟨ev, hev, hevb⟩
      rcases processAirports_bounds p es (n + 1) db1 ev hev with ⟨jb, hjb, hnb, _⟩
      rw [hjb] at hevb
      have hb' : jb = b := Option.some_inj.mp hevb
      have ha' : a = n := htr a ha
      omega

/-- C1: when element i (0-based, so element k = i + 1 in the 1-indexed
words of the spec) is the first failing element of a submitted array —
failing by decode, validation or persistence — the streaming handler
answers with the error of exactly that element, its final table is the
table obtained by processing only the preceding elements (they stay
persisted, no rollback), each preceding element was upserted, no event
concerns any element beyond i, and the element events appear in array
order. -/
theorem stream_first_failure (p : PersistOracle) (flushErr : Option String) (db : Db)
    (elems : List (Option UpsertAirportRequest)) (closeOk : Bool) (i : Nat)
    (hi : i < elems.length)
    (hpre : ∀ j (hj : j < i), elemErr p j (elems.get ⟨j, hj.trans hi⟩) = none)
    (hfail : elemErr p i (elems.get ⟨i, hi⟩) ≠ none) :
    (∀ he, elemErr p i (elems.get ⟨i, hi⟩) = some he →
      (handleUpsert p flushErr db ⟨true, elems, closeOk⟩).resp =
        ⟨he.code, Body.errorB he.msg⟩)
    ∧ (handleUpsert p flushErr db ⟨true, elems, closeOk⟩).db =
        (processAirports p 0 db (elems.take i)).2.1
    ∧ (∀ rs, sequenceElems (elems.take i) = some rs →
        (handleUpsert p flushErr db ⟨true, elems, closeOk⟩).db = foldUpserts db rs)
    ∧ (∀ j (hj : j < i), ∃ req, elems.get ⟨j, hj.trans hi⟩ = some req ∧
        Event.upsertElem j req.toAirport none ∈
          (handleUpsert p flushErr db ⟨true, elems, closeOk⟩).trace)
    ∧ (∀ ev ∈ (handleUpsert p flushErr db ⟨true, elems, closeOk⟩).trace,
        ∀ j, evIdx ev = some j → j ≤ i)
    ∧ (elemIdxs (handleUpsert p flushErr db ⟨true, elems, closeOk⟩).trace).Sorted (· ≤ ·) := by
  have hpre0 : ∀ j (hj : j < i), elemErr p (0 + j) (elems.get ⟨j, hj.trans hi⟩) = none := by
    intro j hj
    rw [Nat.zero_add]
    exact hpre j hj
  have hfail0 : elemErr p (0 + i) (elems.get ⟨i, hi⟩) ≠ none := by
    rw [Nat.zero_add]
    exact hfail
  have hstop := processAirports_stop p elems 0 db i hi hpre0 hfail0
  rcases hfe : elemErr p i (elems.get ⟨i, hi⟩) with _ | he
  · exact absurd hfe hfail
  rcases hpa : processAirports p 0 db elems with ⟨tr, db1, herr⟩
  have herr_eq : herr = some he := by
    have h1 := hstop.1
    rw [hpa] at h1
    simp only at h1
    rw [h1, Nat.zero_add, hfe]
  subst herr_eq
  have hH : handleUpsert p flushErr db ⟨true, elems, closeOk⟩ =
      ⟨Event.readOpen true :: tr, ⟨he.code, Body.errorB he.msg⟩, db1⟩ := by
    unfold handleUpsert
    rw [hpa]
    rfl
  have hdb1 : db1 = (processAirports p 0 db (elems.take i)).2.1 := by
    have h2 := hstop.2.1
    rw [hpa] at h2
    simpa using h2
  have htr : tr = (processAirports p 0 db (elems.take i)).1 ++
      (processAirport p (0 + i) ((processAirports p 0 db (elems.take i)).2.1)
        (elems.get ⟨i, hi⟩)).1 := by
    have h3 := hstop.2.2
    rw [hpa] at h3
    simpa using h3
  have hlen_take : (elems.take i).length = i := by
    rw [List.length_take]
    omega
  have hall_take : ∀ j (hj : j < (elems.take i).length),
      elemErr p (0 + j) ((elems.take i).get ⟨j, hj⟩) = none := by
    intro j hj
    have hj' : j < i := by omega
    have hget : (elems.take i).get ⟨j, hj⟩ = elems.get ⟨j, hj'.trans hi⟩ := by
      simp [List.get_eq_getElem]
    rw [hget, Nat.zero_add]
    exact hpre j hj'
  refine ⟨?_, ?_, ?_, ?_, ?_, ?_⟩
  · intro he' hhe
    have hee : he' = he := (Option.some_inj.mp hhe).symm
    subst hee
    rw [hH]
  · rw [hH]
    exact hdb1
  · intro rs hrs
    rw [hH]
    have := (processAirports_all_ok p (elems.take i) 0 db hall_take).2 rs hrs
    simp only
    rw [hdb1, this]
  · intro j hj
    have hj'' : j < (elems.take i).length := by omega
    rcases processAirports_ok_mem p (elems.take i) 0 db hall_take j hj'' with ⟨req, hget, hmem⟩
    refine ⟨req, ?_, ?_⟩
    · rw [← hget]
      simp [List.get_eq_getElem]
    · rw [hH]
      simp only
      rw [htr]
      rw [Nat.zero_add] at hmem
      exact List.mem_cons_of_mem _ (List.mem_append_left _ hmem)
  · intro ev hev j hj
    rw [hH] at hev
    simp only at hev
    rcases List.mem_cons.mp hev with h1 | h1
    · rw [h1] at hj
      simp [evIdx] at hj
    · rw [htr] at h1
      rcases List.mem_append.mp h1 with h2 | h2
      · rcases processAirports_bounds p (elems.take i) 0 db ev h2 with ⟨j', hj', _, hlt⟩
        rw [hj'] at hj
        cases hj
        omega
      · have := processAirport_events p (0 + i) _ (elems.get ⟨i, hi⟩) ev h2
        rw [this] at hj
        cases hj
        omega
  · rw [hH]
    simp only
    have hblock : ∀ x ∈ elemIdxs (processAirport p (0 + i)
        ((processAirports p 0 db (elems.take i)).2.1) (elems.get ⟨i, hi⟩)).1, x = i := by
      intro x hx
      rcases List.mem_filterMap.mp hx with ⟨ev, hev, hevx⟩
      have := processAirport_events p (0 + i) _ (elems.get ⟨i, hi⟩) ev hev
      rw [this] at hevx
      have := Option.some_inj.mp hevx
      omega
    have hhead : elemIdxs (Event.readOpen true :: tr) = elemIdxs tr := by
      simp [elemIdxs, List.filterMap_cons, evIdx]
    rw [hhead, htr]
    simp only [elemIdxs, List.filterMap_append]
    refine List.pairwise_append.mpr ⟨processAirports_sorted p (elems.take i) 0 db, ?_, ?_⟩
    · exact sorted_of_all_eq _ i hblock
    · intro a ha b hb
      rcases List.mem_filterMap.mp ha with ⟨ev, hev, heva⟩
      rcases processAirports_bounds p (elems.take i) 0 db ev hev with ⟨j', hj', _, hlt⟩
      rw [hj'] at heva
      have ha' : j' = a := Option.some_inj.mp heva
      have hb' : b = i := hblock b hb
      omega

set_option maxRecDepth 8192 in
/-- C1 witness: in a two-element array whose second element fails
validation, the first element is persisted, the response carries the
validation error of the second element, and the trace stays within the
first two indices. -/
theorem stream_first_failure_witness :
    (handleUpsert pNone none [] ⟨true, [some sampleReq, some ⟨"", "", "", ""⟩], true⟩).resp =
      ⟨400, Body.errorB (violationsMsg (validateCheck ⟨"", "", "", ""⟩))⟩
    ∧ (handleUpsert pNone none [] ⟨true, [some sampleReq, some ⟨"", "", "", ""⟩], true⟩).db =
        foldUpserts [] [sampleReq] := by
  have h := stream_first_failure pNone none []
    [some sampleReq, some ⟨"", "", "", ""⟩] true 1 (by decide)
    (by
      intro j hj
      have hj0 : j = 0 := by omega
      subst hj0
      show elemErr pNone 0 (some sampleReq) = none
      decide)
    (by
      show elemErr pNone 1 (some ⟨"", "", "", ""⟩) ≠ none
      decide)
  refine ⟨?_, ?_⟩
  · refine h.1 ⟨400, violationsMsg (validateCheck ⟨"", "", "", ""⟩)⟩ ?_
    show elemErr pNone 1 (some ⟨"", "", "", ""⟩) =
      some ⟨400, violationsMsg (validateCheck ⟨"", "", "", ""⟩)⟩
    decide
  · refine h.2.2.1 [sampleReq] ?_
    decide

lemma elemErr_none_of_ok (p : PersistOracle) (i : Nat) (req : UpsertAirportRequest)
    (hv : validateCheck req = []) (hp : p i req.toAirport = none) :
    elemErr p i (some req) = none := by
  simp [elemErr, processAirport, hv, hp]

lemma sequenceElems_map_some (reqs : List UpsertAirportRequest) :
    sequenceElems (reqs.map some) = some reqs := by
  induction reqs with
  | nil => rfl
  | cons r rs ih =>
    show (sequenceElems (rs.map some)).map (fun l => r :: l) = some (r :: rs)
    rw [ih]
    rfl

lemma upsertLoop_all_ok (p : PersistOracle) :
    ∀ (reqs : List UpsertAirportRequest) (n : Nat) (db : Db),
      (∀ j (hj : j < reqs.length), validateCheck (reqs.get ⟨j, hj⟩) = []
        ∧ p (n + j) (reqs.get ⟨j, hj⟩).toAirport = none) →
      (upsertLoop p n db reqs).2.2 = none
      ∧ (upsertLoop p n db reqs).2.1 = foldUpserts db reqs := by
  intro reqs
  induction reqs with
  | nil => intro n db _; exact ⟨rfl, rfl⟩
  | cons req rs ih =>
    intro n db hall
    have h0 := hall 0 (by simp)
    have hv : validateCheck req = [] := by simpa using h0.1
    have hp : p n req.toAirport = none := by simpa using h0.2
    have hall' : ∀ j (hj : j < rs.length), validateCheck (rs.get ⟨j, hj⟩) = []
        ∧ p ((n + 1) + j) (rs.get ⟨j, hj⟩).toAirport = none := by
      intro j hj
      have harith : n + (j + 1) = (n + 1) + j := by omega
      have := hall (j + 1) (by simpa using Nat.succ_lt_succ hj)
      rw [harith] at this
      simpa using this
    have IH := ih (n + 1) (upsertDb db req.toAirport) hall'
    constructor
    · simp only [upsertLoop, hv, List.isEmpty_nil, if_true, hp]
      exact IH.1
    · simp only [upsertLoop, hv, List.isEmpty_nil, if_true, hp]
      exact IH.2

/-- C3: on a fully valid non-empty candidate array, with every
persistence call succeeding and a working transport, the streaming and
full-buffer baseline handlers answer with the identical success response
(200, airports upserted) and leave identical persisted record sets,
namely the array-order fold of the upserts over the starting table. -/
theorem streaming_baseline_agree (p : PersistOracle) (db : Db)
    (reqs : List UpsertAirportRequest) (hne : reqs ≠ [])
    (hok : ∀ j (hj : j < reqs.length), validateCheck (reqs.get ⟨j, hj⟩) = []
      ∧ p j (reqs.get ⟨j, hj⟩).toAirport = none) :
    (handleUpsertJ p none db (Jbody.jarray (reqs.map some) true)).resp =
      ⟨200, Body.successB "airports upserted"⟩
    ∧ (handleNonStreamingUpsert p false db (Jbody.jarray (reqs.map some) true)).resp =
      ⟨200, Body.successB "airports upserted"⟩
    ∧ (handleUpsertJ p none db (Jbody.jarray (reqs.map some) true)).db =
        (handleNonStreamingUpsert p false db (Jbody.jarray (reqs.map some) true)).db
    ∧ (handleUpsertJ p none db (Jbody.jarray (reqs.map some) true)).db =
        foldUpserts db reqs := by
  have hallE : ∀ j (hj : j < (reqs.map some).length),
      elemErr p (0 + j) ((reqs.map some).get ⟨j, hj⟩) = none := by
    intro j hj
    have hj' : j < reqs.length := by simpa using hj
    have hget : (reqs.map some).get ⟨j, hj⟩ = some (reqs.get ⟨j, hj'⟩) := by
      simp [List.get_eq_getElem]
    rw [hget, Nat.zero_add]
    exact elemErr_none_of_ok p j _ (hok j hj').1 (hok j hj').2
  have hs := processAirports_all_ok p (reqs.map some) 0 db hallE
  have hseq := sequenceElems_map_some reqs
  rcases hpa : processAirports p 0 db (reqs.map some) with ⟨tr, db1, herr⟩
  have herr_eq : herr = none := by
    have h1 := hs.1
    rw [hpa] at h1
    simpa using h1
  subst herr_eq
  have hdb1 : db1 = foldUpserts db reqs := by
    have h2 := hs.2 reqs hseq
    rw [hpa] at h2
    simpa using h2
  have hS : handleUpsertJ p none db (Jbody.jarray (reqs.map some) true) =
      ⟨Event.readOpen true :: tr ++ [Event.readClose true, Event.flushEv true],
        ⟨200, Body.successB "airports upserted"⟩, db1⟩ := by
    unfold handleUpsertJ streamView handleUpsert
    rw [hpa]
    rfl
  have hloop := upsertLoop_all_ok p reqs 0 db (by
    intro j hj
    rw [Nat.zero_add]
    exact hok j hj)
  rcases hul : upsertLoop p 0 db reqs with ⟨trB, dbB, herrB⟩
  have herrB_eq : herrB = none := by
    have h1 := hloop.1
    rw [hul] at h1
    simpa using h1
  subst herrB_eq
  have hdbB : dbB = foldUpserts db reqs := by
    have h2 := hloop.2
    rw [hul] at h2
    simpa using h2
  have hB : handleNonStreamingUpsert p false db (Jbody.jarray (reqs.map some) true) =
      ⟨trB, ⟨200, Body.successB "airports upserted"⟩, dbB⟩ := by
    unfold handleNonStreamingUpsert unmarshalAirports
    rw [if_neg (by simp)]
    simp only [if_true, hseq]
    rw [hul]
  rw [hS, hB]
  exact ⟨rfl, rfl, by simp [hdb1, hdbB], by simp [hdb1]⟩

set_option maxRecDepth 8192 in
/-- C3 witness: a concrete valid two-element array persisted by both
handlers from the empty table. -/
theorem streaming_baseline_agree_witness :
    (handleUpsertJ pNone none []
      (Jbody.jarray ([sampleReq, ⟨"D", "E", "F", "X2"⟩].map some) true)).resp =
      ⟨200, Body.successB "airports upserted"⟩
    ∧ (handleUpsertJ pNone none []
        (Jbody.jarray ([sampleReq, ⟨"D", "E", "F", "X2"⟩].map some) true)).db =
      foldUpserts [] [sampleReq, ⟨"D", "E", "F", "X2"⟩] := by
  have h := streaming_baseline_agree pNone [] [sampleReq, ⟨"D", "E", "F", "X2"⟩]
    (by decide)
    (by
      intro j hj
      have hj2 : j < 2 := by simpa using hj
      have hj01 : j = 0 ∨ j = 1 := by omega
      rcases hj01 with h1 | h1 <;> subst h1
      · refine ⟨?_, rfl⟩
        show validateCheck sampleReq = []
        decide
      · refine ⟨?_, rfl⟩
        show validateCheck ⟨"D", "E", "F", "X2"⟩ = []
        decide)
  exact ⟨h.1, h.2.2.2⟩

lemma isUpsertAt_evIdx (i : Nat) (ev : Event) (h : isUpsertAt i ev = true) :
    evIdx ev = some i := by
  cases ev <;> simp_all [isUpsertAt, evIdx]

lemma filter_upsert_nil (i : Nat) (t : List Event)
    (h : ∀ ev ∈ t, ∀ j, evIdx ev = some j → j ≠ i) :
    t.filter (isUpsertAt i) = [] := by
  rw [List.filter_eq_nil_iff]
  intro ev hev hup
  exact h ev hev i (isUpsertAt_evIdx i ev hup) rfl

lemma upsertLoop_fail (p : PersistOracle) :
    ∀ (reqs : List UpsertAirportRequest) (n : Nat) (db : Db) (i : Nat) (hi : i < reqs.length)
      (msg : String),
      (∀ j (hj : j < i), validateCheck (reqs.get ⟨j, hj.trans hi⟩) = []
        ∧ p (n + j) (reqs.get ⟨j, hj.trans hi⟩).toAirport = none) →
      validateCheck (reqs.get ⟨i, hi⟩) = [] →
      p (n + i) (reqs.get ⟨i, hi⟩).toAirport = some msg →
      (upsertLoop p n db reqs).2.2 = some ⟨500, "error upserting airport: " ++ msg⟩
      ∧ ((upsertLoop p n db reqs).1.filter (isUpsertAt (n + i))).length = 1 := by
  intro reqs
  induction reqs with
  | nil => intro n db i hi; simp at hi
  | cons req rs ih =>
    intro n db i hi msg hpre hv hp
    cases i with
    | zero =>
      have hv0 : validateCheck req = [] := hv
      have hp0 : p n req.toAirport = some msg := hp
      constructor
      · simp [upsertLoop, hv0, hp0]
      · simp [upsertLoop, hv0, hp0, List.filter_cons, isUpsertAt]
    | succ j =>
      have hj : j < rs.length := by simpa using hi
      have h0 := hpre 0 (Nat.succ_pos j)
      have hv0 : validateCheck req = [] := by simpa using h0.1
      have hp0 : p n req.toAirport = none := by simpa using h0.2
      have harith : n + (j + 1) = (n + 1) + j := by omega
      have hpre' : ∀ j' (hj' : j' < j), validateCheck (rs.get ⟨j', hj'.trans hj⟩) = []
          ∧ p ((n + 1) + j') (rs.get ⟨j', hj'.trans hj⟩).toAirport = none := by
        intro j' hj'
        have harith' : n + (j' + 1) = (n + 1) + j' := by omega
        have := hpre (j' + 1) (by omega)
        rw [harith'] at this
        exact this
      have hv' : validateCheck (rs.get ⟨j, hj⟩) = [] := hv
      have hp' : p ((n + 1) + j) (rs.get ⟨j, hj⟩).toAirport = some msg := by
        rw [← harith]
        exact hp
      have IH := ih (n + 1) (upsertDb db req.toAirport) j hj msg hpre' hv' hp'
      constructor
      · simp only [upsertLoop, hv0, List.isEmpty_nil, if_true, hp0]
        exact IH.1
      · simp only [upsertLoop, hv0, List.isEmpty_nil, if_true, hp0]
        have hne1 : isUpsertAt (n + (j + 1)) (Event.validateElem n []) = false := rfl
        have hne2 : isUpsertAt (n + (j + 1)) (Event.upsertElem n req.toAirport none) = false := by
          simp only [isUpsertAt]
          exact beq_eq_false_iff_ne.mpr (by omega)
        simp only [List.filter_cons, hne1, hne2, Bool.false_eq_true, if_false]
        rw [harith]
        exact IH.2

/-- C9: when the persistence call of element i fails with an error
message, both the streaming and the baseline handler answer 500 with the
message wrapped as error upserting airport, the underlying cause kept;
each handler issued exactly one persistence call for that element (no
retry). -/
theorem persistence_error_surfaced (p : PersistOracle) (db : Db)
    (reqs : List UpsertAirportRequest) (i : Nat) (hi : i < reqs.length) (msg : String)
    (flushErr : Option String) (closeOk : Bool)
    (hpre : ∀ j (hj : j < i), validateCheck (reqs.get ⟨j, hj.trans hi⟩) = []
      ∧ p j (reqs.get ⟨j, hj.trans hi⟩).toAirport = none)
    (hv : validateCheck (reqs.get ⟨i, hi⟩) = [])
    (hp : p i (reqs.get ⟨i, hi⟩).toAirport = some msg) :
    (handleUpsert p flushErr db ⟨true, reqs.map some, closeOk⟩).resp =
      ⟨500, Body.errorB ("error upserting airport: " ++ msg)⟩
    ∧ (handleNonStreamingUpsert p false db (Jbody.jarray (reqs.map some) true)).resp =
      ⟨500, Body.errorB ("error upserting airport: " ++ msg)⟩
    ∧ ((handleUpsert p flushErr db ⟨true, reqs.map some, closeOk⟩).trace.filter
        (isUpsertAt i)).length = 1
    ∧ ((handleNonStreamingUpsert p false db (Jbody.jarray (reqs.map some) true)).trace.filter
        (isUpsertAt i)).length = 1 := by
  have hiM : i < (reqs.map some).length := by simpa using hi
  have hgetM : ∀ j (hj : j < reqs.length) (hjm : j < (reqs.map some).length),
      (reqs.map some).get ⟨j, hjm⟩ = some (reqs.get ⟨j, hj⟩) := by
    intro j hj hjm
    simp [List.get_eq_getElem]
  have hvG : validateCheck reqs[i] = [] := by
    have h1 := hv
    rwa [List.get_eq_getElem] at h1
  have hpG : p i reqs[i].toAirport = some msg := by
    have h1 := hp
    rwa [List.get_eq_getElem] at h1
  have hfe : elemErr p i ((reqs.map some).get ⟨i, hiM⟩) =
      some ⟨500, "error upserting airport: " ++ msg⟩ := by
    rw [hgetM i hi hiM]
    simp [elemErr, processAirport, hvG, hpG]
  have hpre0 : ∀ j (hj : j < i),
      elemErr p (0 + j) ((reqs.map some).get ⟨j, hj.trans hiM⟩) = none := by
    intro j hj
    rw [hgetM j (hj.trans hi) (hj.trans hiM), Nat.zero_add]
    exact elemErr_none_of_ok p j _ (hpre j hj).1 (hpre j hj).2
  have hfail0 : elemErr p (0 + i) ((reqs.map some).get ⟨i, hiM⟩) ≠ none := by
    rw [Nat.zero_add, hfe]
    simp
  have hstop := processAirports_stop p (reqs.map some) 0 db i hiM hpre0 hfail0
  rcases hpa : processAirports p 0 db (reqs.map some) with ⟨tr, db1, herr⟩
  have herr_eq : herr = some ⟨500, "error upserting airport: " ++ msg⟩ := by
    have h1 := hstop.1
    rw [hpa] at h1
    simp only at h1
    rw [h1, Nat.zero_add, hfe]
  subst herr_eq
  have hH : handleUpsert p flushErr db ⟨true, reqs.map some, closeOk⟩ =
      ⟨Event.readOpen true :: tr,
        ⟨500, Body.errorB ("error upserting airport: " ++ msg)⟩, db1⟩ := by
    unfold handleUpsert
    rw [hpa]
    rfl
  have htr : tr = (processAirports p 0 db ((reqs.map some).take i)).1 ++
      (processAirport p (0 + i) ((processAirports p 0 db ((reqs.map some).take i)).2.1)
        ((reqs.map some).get ⟨i, hiM⟩)).1 := by
    have h3 := hstop.2.2
    rw [hpa] at h3
    simpa using h3
  rw [Nat.zero_add] at htr
  have hlen_take : ((reqs.map some).take i).length = i := by
    rw [List.length_take]
    simp only [List.length_map]
    omega
  have hcountS : ((Event.readOpen true :: tr).filter (isUpsertAt i)).length = 1 := by
    rw [List.filter_cons]
    have hro : isUpsertAt i (Event.readOpen true) = false := rfl
    rw [hro]
    simp only [Bool.false_eq_true, if_false]
    rw [htr, List.filter_append]
    have h1 : ((processAirports p 0 db ((reqs.map some).take i)).1.filter (isUpsertAt i)) = [] := by
      apply filter_upsert_nil
      intro ev hev j hj
      rcases processAirports_bounds p ((reqs.map some).take i) 0 db ev hev with ⟨j', hj', _, hlt⟩
      rw [hj'] at hj
      have : j' = j := Option.some_inj.mp hj
      omega
    have hblock : (processAirport p i ((processAirports p 0 db ((reqs.map some).take i)).2.1)
        ((reqs.map some).get ⟨i, hiM⟩)).1 =
        [Event.decodeElem i true, Event.validateElem i [],
          Event.upsertElem i (reqs.get ⟨i, hi⟩).toAirport (some msg)] := by
      rw [hgetM i hi hiM]
      simp [processAirport, hvG, hpG, List.get_eq_getElem]
    rw [h1, hblock]
    simp [List.filter_cons, isUpsertAt]
  have hul_all := upsertLoop_fail p reqs 0 db i hi msg
    (by
      intro j hj
      rw [Nat.zero_add]
      exact hpre j hj)
    hv
    (by rw [Nat.zero_add]; exact hp)
  rcases hul : upsertLoop p 0 db reqs with ⟨trB, dbB, herrB⟩
  have herrB_eq : herrB = some ⟨500, "error upserting airport: " ++ msg⟩ := by
    have h1 := hul_all.1
    rw [hul] at h1
    simpa using h1
  subst herrB_eq
  have hB : handleNonStreamingUpsert p false db (Jbody.jarray (reqs.map some) true) =
      ⟨trB, ⟨500, Body.errorB ("error upserting airport: " ++ msg)⟩, dbB⟩ := by
    unfold handleNonStreamingUpsert unmarshalAirports
    rw [if_neg (by simp)]
    simp only [if_true, sequenceElems_map_some]
    rw [hul]
  have hcountB : (trB.filter (isUpsertAt i)).length = 1 := by
    have h2 := hul_all.2
    rw [hul] at h2
    rw [Nat.zero_add] at h2
    simpa using h2
  rw [hH, hB]
  exact ⟨rfl, rfl, hcountS, hcountB⟩

/-- pFailX2 is a persistence collaborator failing exactly on the element
with code X2, with the database error of the tests. -/
def pFailX2 : PersistOracle := fun _ a =>
  if a.iataCode == "X2" then some "database error" else none

set_option maxRecDepth 8192 in
/-- C9 witness: with the persistence failure injected on the second of
two elements, both handlers answer 500 with the wrapped message and call
the persistence port once for that element. -/
theorem persistence_error_surfaced_witness :
    (handleUpsert pFailX2 none [] ⟨true, [sampleReq, ⟨"D", "E", "F", "X2"⟩].map some, true⟩).resp =
      ⟨500, Body.errorB "error upserting airport: database error"⟩
    ∧ ((handleNonStreamingUpsert pFailX2 false []
        (Jbody.jarray ([sampleReq, ⟨"D", "E", "F", "X2"⟩].map some) true)).trace.filter
          (isUpsertAt 1)).length = 1 := by
  have h := persistence_error_surfaced pFailX2 [] [sampleReq, ⟨"D", "E", "F", "X2"⟩]
    1 (by decide) "database error" none true
    (by
      intro j hj
      have hj0 : j = 0 := by omega
      subst hj0
      refine ⟨?_, ?_⟩
      · show validateCheck sampleReq = []
        decide
      · show pFailX2 0 sampleReq.toAirport = none
        decide)
    (by
      show validateCheck ⟨"D", "E", "F", "X2"⟩ = []
      decide)
    (by
      show pFailX2 1 (UpsertAirportRequest.toAirport ⟨"D", "E", "F", "X2"⟩) = some "database error"
      decide)
  exact ⟨h.1, h.2.2.2⟩

lemma reqOfAirport_toAirport (r : UpsertAirportRequest) :
    reqOfAirport r.toAirport = r := rfl

lemma processAirport_upsert_validated (p : PersistOracle) (i : Nat) (db : Db)
    (e : Option UpsertAirportRequest) (j : Nat) (a : Airport) (er : Option String)
    (h : Event.upsertElem j a er ∈ (processAirport p i db e).1) :
    validateCheck (reqOfAirport a) = [] := by
  cases e with
  | none => simp [processAirport] at h
  | some req =>
    simp only [processAirport] at h
    by_cases hv : (validateCheck req).isEmpty
    · rw [if_pos hv] at h
      have hfin : a = req.toAirport → validateCheck (reqOfAirport a) = [] := by
        intro ha
        rw [ha, reqOfAirport_toAirport]
        exact List.isEmpty_iff.mp hv
      cases hp : p i req.toAirport with
      | some msg =>
        rw [hp] at h
        simp only [List.mem_cons, List.not_mem_nil, or_false] at h
        rcases h with h | h | h
        · exact absurd h (by simp)
        · exact absurd h (by simp)
        · injection h with h1 h2 h3
          exact hfin h2
      | none =>
        rw [hp] at h
        simp only [List.mem_cons, List.not_mem_nil, or_false] at h
        rcases h with h | h | h
        · exact absurd h (by simp)
        · exact absurd h (by simp)
        · injection h with h1 h2 h3
          exact hfin h2
    · rw [if_neg hv] at h
      simp only [List.mem_cons, List.not_mem_nil, or_false] at h
      rcases h with h | h
      · exact absurd h (by simp)
      · exact absurd h (by simp)

lemma processAirports_upsert_validated (p : PersistOracle) :
    ∀ (l : List (Option UpsertAirportRequest)) (n : Nat) (db : Db) (j : Nat) (a : Airport)
      (er : Option String),
      Event.upsertElem j a er ∈ (processAirports p n db l).1 →
      validateCheck (reqOfAirport a) = [] := by
  intro l
  induction l with
  | nil => intro n db j a er h; simp [processAirports] at h
  | cons e es ih =>
    intro n db j a er h
    rcases hpa : processAirport p n db e with ⟨tr, db1, herr⟩
    have htr : tr = (processAirport p n db e).1 := by rw [hpa]
    cases herr with
    | some he =>
      simp only [processAirports, hpa] at h
      exact processAirport_upsert_validated p n db e j a er (htr ▸ h)
    | none =>
      simp only [processAirports, hpa] at h
      rcases List.mem_append.mp h with h1 | h1
      · exact processAirport_upsert_validated p n db e j a er (htr ▸ h1)
      · exact ih (n + 1) db1 j a er h1

lemma upsertLoop_upsert_validated (p : PersistOracle) :
    ∀ (reqs : List UpsertAirportRequest) (n : Nat) (db : Db) (j : Nat) (a : Airport)
      (er : Option String),
      Event.upsertElem j a er ∈ (upsertLoop p n db reqs).1 →
      validateCheck (reqOfAirport a) = [] := by
  intro reqs
  induction reqs with
  | nil => intro n db j a er h; simp [upsertLoop] at h
  | cons req rs ih =>
    intro n db j a er h
    simp only [upsertLoop] at h
    by_cases hv : (validateCheck req).isEmpty
    · rw [if_pos hv] at h
      have hfin : a = req.toAirport → validateCheck (reqOfAirport a) = [] := by
        intro ha
        rw [ha, reqOfAirport_toAirport]
        exact List.isEmpty_iff.mp hv
      cases hp : p n req.toAirport with
      | some msg =>
        rw [hp] at h
        simp only [List.mem_cons, List.not_mem_nil, or_false] at h
        rcases h with h | h
        · exact absurd h (by simp)
        · injection h with h1 h2 h3
          exact hfin h2
      | none =>
        rw [hp] at h
        simp only [List.mem_cons] at h
        rcases h with h | h | h
        · exact absurd h (by simp)
        · injection h with h1 h2 h3
          exact hfin h2
        · exact ih (n + 1) (upsertDb db req.toAirport) j a er h
    · rw [if_neg hv] at h
      simp only [List.mem_cons, List.not_mem_nil, or_false] at h
      exact absurd h (by simp)

lemma handleUpsert_upsert_mem (p : PersistOracle) (f : Option String) (db : Db)
    (b : StreamBody) (j : Nat) (a : Airport) (er : Option String)
    (h : Event.upsertElem j a er ∈ (handleUpsert p f db b).trace) :
    Event.upsertElem j a er ∈ (processAirports p 0 db b.elems).1 := by
  by_cases ho : b.openOk
  · rcases hpa : processAirports p 0 db b.elems with ⟨tr, db1, herr⟩
    cases herr with
    | some he =>
      simp only [handleUpsert, ho, if_true, hpa] at h
      rcases List.mem_cons.mp h with h1 | h1
      · exact absurd h1 (by simp)
      · exact h1
    | none =>
      by_cases hcl : b.closeOk
      · cases f with
        | some msg =>
          simp only [handleUpsert, ho, if_true, hpa, hcl] at h
          rcases List.mem_cons.mp h with h1 | h1
          · exact absurd h1 (by simp)
          · rcases List.mem_append.mp h1 with h2 | h2
            · exact h2
            · simp at h2
        | none =>
          simp only [handleUpsert, ho, if_true, hpa, hcl] at h
          rcases List.mem_cons.mp h with h1 | h1
          · exact absurd h1 (by simp)
          · rcases List.mem_append.mp h1 with h2 | h2
            · exact h2
            · simp at h2
      · simp only [handleUpsert, ho, if_true, hpa, hcl, if_false] at h
        rcases List.mem_cons.mp h with h1 | h1
        · exact absurd h1 (by simp)
        · rcases List.mem_append.mp h1 with h2 | h2
          · exact h2
          · simp at h2
  · simp only [handleUpsert, ho, if_false] at h
    rcases List.mem_cons.mp h with h1 | h1
    · exact absurd h1 (by simp)
    · simp at h1

/-- C4: on both paths a persistence call is reached only for a candidate
whose validation produced no violations: every upsert event of any
streaming or baseline run carries an airport whose originating request
passes validateCheck with the empty violation list. -/
theorem upsert_only_validated :
    (∀ (p : PersistOracle) (f : Option String) (db : Db) (b : StreamBody)
      (j : Nat) (a : Airport) (er : Option String),
      Event.upsertElem j a er ∈ (handleUpsert p f db b).trace →
        validateCheck (reqOfAirport a) = [])
    ∧ (∀ (p : PersistOracle) (rf : Bool) (db : Db) (body : Jbody)
      (j : Nat) (a : Airport) (er : Option String),
      Event.upsertElem j a er ∈ (handleNonStreamingUpsert p rf db body).trace →
        validateCheck (reqOfAirport a) = []) := by
  constructor
  · intro p f db b j a er h
    exact processAirports_upsert_validated p b.elems 0 db j a er
      (handleUpsert_upsert_mem p f db b j a er h)
  · intro p rf db body j a er h
    by_cases hrf : rf
    · simp [handleNonStreamingUpsert, hrf] at h
    · rcases hum : unmarshalAirports body with _ | reqs
      · simp [handleNonStreamingUpsert, hrf, hum] at h
      · rcases hul : upsertLoop p 0 db reqs with ⟨trB, dbB, herrB⟩
        have htr : (handleNonStreamingUpsert p rf db body).trace = trB := by
          cases herrB <;> simp [handleNonStreamingUpsert, hrf, hum, hul]
        rw [htr] at h
        have hmem : Event.upsertElem j a er ∈ (upsertLoop p 0 db reqs).1 := by
          rw [hul]
          exact h
        exact upsertLoop_upsert_validated p reqs 0 db j a er hmem

set_option maxRecDepth 8192 in
/-- C4 witness: the upsert event of the concrete happy-path streaming run
indeed carries a candidate passing validation. -/
theorem upsert_only_validated_witness :
    validateCheck (reqOfAirport sampleReq.toAirport) = [] :=
  upsert_only_validated.1 pNone none [] ⟨true, [some sampleReq], true⟩ 0
    sampleReq.toAirport none (by decide)

lemma present_false_iff (s : String) :
    present s = false ↔ ∀ c ∈ s.data, c.isWhitespace := by
  simp [present, List.any_eq_false]

lemma requiredViolation_inj (f g : String) :
    requiredViolation f = requiredViolation g ↔ f = g := by
  constructor
  · intro h
    have h1 := congrArg Violation.field h
    simpa [requiredViolation] using h1
  · intro h
    rw [h]

/-- C6: the validator (modelled from the spec; the validate package is
not under src/) requires exactly name, city, country and iata_code under
the whitespace-insensitive presence check — a field of only whitespace
counts as missing — never requires geolocation, emits violations in the
fixed declaration order name, city, country, iata_code, and yields the
empty list (not an error) on a fully valid candidate. -/
theorem validator_rules (r : UpsertAirportRequest) :
    ((validateCheck r).map (fun v => v.field)).Sublist
      ["name", "city", "country", "iata_code"]
    ∧ (validateCheck r = [] ↔
        present r.name ∧ present r.city ∧ present r.country ∧ present r.iataCode)
    ∧ ((∀ c ∈ r.name.data, c.isWhitespace) ↔ requiredViolation "name" ∈ validateCheck r)
    ∧ ((∀ c ∈ r.city.data, c.isWhitespace) ↔ requiredViolation "city" ∈ validateCheck r)
    ∧ ((∀ c ∈ r.country.data, c.isWhitespace) ↔ requiredViolation "country" ∈ validateCheck r)
    ∧ ((∀ c ∈ r.iataCode.data, c.isWhitespace) ↔ requiredViolation "iata_code" ∈ validateCheck r)
    ∧ (∀ v ∈ validateCheck r, v.field ≠ "geoloc") := by
  rw [← present_false_iff r.name, ← present_false_iff r.city,
    ← present_false_iff r.country, ← present_false_iff r.iataCode]
  simp only [validateCheck]
  cases hn : present r.name <;> cases h2 : present r.city <;>
    cases h3 : present r.country <;> cases h4 : present r.iataCode <;>
    simp_all [requiredViolation_inj, requiredViolation]

/-- C6 witness: a candidate whose iata_code is only whitespace produces
the iata_code violation. -/
theorem validator_rules_witness :
    requiredViolation "iata_code" ∈ validateCheck ⟨"A", "B", "C", "   "⟩ :=
  (validator_rules ⟨"A", "B", "C", "   "⟩).2.2.2.2.2.1.mp (by decide)

end GoAirports
